import Mathlib

/-!
Verification of the redux-cqrs core: type-tag derivation, the
command/event dispatcher queue engine, and entity hydration.

The definitions in this file are a shallow embedding of the TypeScript
sources:
  * `src/dispatchers/index.ts` - `CommandDispatcher`, `EventDispatcher`
  * `src/domain/index.ts`      - `hydrateEntity`
  * `src/commands/index.ts`    - message tag stamping

Strings are modelled as Lean `String`s / `List Char`; the JavaScript
string operations used by the source (the regex replace
`/([a-z])([A-Z])/g` with `'$1_$2'`, `toUpperCase`, `split('_')`,
`indexOf`, `slice(0, n)`, `join('_')`, `toLowerCase`) are embedded as
executable functions below.  All character arithmetic is ASCII, which
coincides with the JavaScript behaviour on the identifier characters
the source manipulates.
-/

namespace ReduxCqrs

/-! ## Type-tag derivation (src/dispatchers/index.ts, registerHandler) -/

/-- Embedding of `name.replace(/([a-z])([A-Z])/g, '$1_$2')`: insert `'_'`
at every lower-to-upper letter boundary.  The regex consumes both
characters of a match, but since the second character of a match is
uppercase it can never start a new match, so plain left-to-right
insertion is equivalent. -/
def camelToSnake : List Char → List Char
  | [] => []
  | [c] => [c]
  | c :: d :: rest =>
    if c.isLower && d.isUpper then c :: '_' :: camelToSnake (d :: rest)
    else c :: camelToSnake (d :: rest)

/-- Helper for `splitU`: returns the segment before the first `'_'`
and the list of remaining segments. -/
def splitCore : List Char → List Char × List (List Char)
  | [] => ([], [])
  | c :: rest =>
    let r := splitCore rest
    if c = '_' then ([], r.1 :: r.2) else (c :: r.1, r.2)

/-- Embedding of JavaScript `s.split('_')`: e.g. `"a_b" ↦ ["a","b"]`,
`"" ↦ [""]`, `"_a" ↦ ["","a"]`. -/
def splitU (l : List Char) : List (List Char) :=
  (splitCore l).1 :: (splitCore l).2

/-- Embedding of JavaScript `parts.join('_')`. -/
def joinU : List (List Char) → List Char
  | [] => []
  | [p] => p
  | p :: q :: ps => p ++ '_' :: joinU (q :: ps)

/-- Embedding of JavaScript `toUpperCase` (character-wise, ASCII). -/
def upperChars (l : List Char) : List Char := l.map Char.toUpper

/-- Embedding of JavaScript `Array.prototype.indexOf`: the first index
holding the target, or `-1` if absent. -/
def jsIndexOf : List (List Char) → List Char → Int
  | [], _ => -1
  | x :: rest, t =>
    if x = t then 0
    else
      let r := jsIndexOf rest t
      if r = -1 then -1 else r + 1

/-- Embedding of the tag computation in `registerHandler`
(`src/dispatchers/index.ts`):

`name.replace(/([a-z])([A-Z])/g,'$1_$2').toUpperCase().split('_')
  .slice(0, name.replace(/([a-z])([A-Z])/g,'$1_$2').split('_')
              .indexOf(seg) + 1).join('_')`

with `seg = "Command"` for the command dispatcher and `seg = "Event"`
for the event dispatcher.  Note that `indexOf` runs on the
non-uppercased split while `slice` runs on the uppercased split. -/
def handlerTag (seg : String) (name : String) : String :=
  let snake := camelToSnake name.toList
  let k := (jsIndexOf (splitU snake) seg.toList + 1).toNat
  String.mk (joinU ((splitU (upperChars snake)).take k))

/-- Embedding of `CommandDispatcher.registerHandler`: the registry map
(`Map.set`) keyed by the derived tag; a later registration overwrites
an earlier one. -/
def registerHandlerC {H : Type} (reg : String → Option H) (name : String)
    (h : H) : String → Option H :=
  fun t => if t = handlerTag "Command" name then some h else reg t

/-- Embedding of `EventDispatcher.registerHandler`. -/
def registerHandlerE {H : Type} (reg : String → Option H) (name : String)
    (h : H) : String → Option H :=
  fun t => if t = handlerTag "Event" name then some h else reg t

/-- Truncation of a segment list just after the first occurrence of the
target segment (keeps everything if the target is absent). -/
def truncAfter : List (List Char) → List Char → List (List Char)
  | [], _ => []
  | p :: ps, t => if p = t then [p] else p :: truncAfter ps t

/-- Modelled from the spec: the tag the specification describes for a
handler name, namely the upper-snake-case form of the name truncated
just after the first `COMMAND` (resp. `EVENT`) segment.  Used to
compare the source's `handlerTag` against the spec's wording. -/
def specTag (upperSeg : String) (name : String) : String :=
  String.mk (joinU (truncAfter (splitU (upperChars (camelToSnake name.toList)))
    upperSeg.toList))

/-- A camel-case segment: one ASCII uppercase letter followed by at
least one ASCII lowercase letter. -/
def camelSeg (s : List Char) : Bool :=
  match s with
  | [] => false
  | c :: cs => c.isUpper && !cs.isEmpty && cs.all (·.isLower)

/-- A camel-case identifier given as its list of segments. -/
def CamelSegs (segs : List (List Char)) : Prop :=
  ∀ s ∈ segs, camelSeg s = true

instance (segs : List (List Char)) : Decidable (CamelSegs segs) := by
  unfold CamelSegs; infer_instance

/-- The identifier spelled by a list of camel-case segments. -/
def strOfSegs (segs : List (List Char)) : String :=
  String.mk segs.flatten

/-! ## Entity hydration (src/domain/index.ts) -/

/-- A JavaScript runtime value as far as hydration is concerned: raw
strings, numbers, booleans, identifier (Guid) values, the opaque
`store.dispatch` capability, and `undefined`. -/
inductive JSValue where
  | str (s : String)
  | num (n : Int)
  | boolean (b : Bool)
  | guid (s : String)
  | dispatchCap
  | undef
deriving DecidableEq, Repr

/-- A persisted entity record: a JavaScript object as an insertion-ordered
list of field-name/value pairs.  `Object.values(record)` is the second
projection in insertion order. -/
abbrev Record := List (String × JSValue)

/-- A state slice: persisted records keyed by stringified entity id. -/
abbrev JSSlice := List (String × Record)

/-- The Redux store as consumed by `hydrateEntity`: `getState()` returns
an object mapping slice names to slices.  The `store.dispatch` capability
is opaque and modelled by `JSValue.dispatchCap`. -/
structure Store where
  state : List (String × JSSlice)
deriving DecidableEq, Repr

/-- An aggregate class as `hydrateEntity` uses it: its runtime `name` and
its constructor, applied to the JavaScript argument list
(`store.dispatch` followed by either the entity id or the spread record
values). -/
structure EntityClass (A : Type) where
  name : String
  construct : List JSValue → A

/-- Embedding of JavaScript `toLowerCase` (character-wise, ASCII). -/
def jsToLowerCase (s : String) : String :=
  String.mk (s.toList.map Char.toLower)

/-- The failure mode of `hydrateEntity`: when the state has no slice under
the lower-cased class name, `entities` is `undefined` and the lookup
`entities[entityId]` raises a `TypeError`. -/
inductive HydrateError where
  | sliceUndefined
deriving DecidableEq, Repr

/-- Embedding of `hydrateEntity` (src/domain/index.ts):

```
const state = store.getState();
const stateSlice = entityClass.name.toLowerCase();
const entities = state[stateSlice];
const entityData = entities[entityId];          // throws if entities is undefined
if (!entityData) return new entityClass(store.dispatch, entityId);
return new entityClass(store.dispatch, ...Object.values(entityData));
```

Records are JavaScript objects and hence truthy, so the `!entityData`
test is exactly "no record under this id". -/
def hydrateEntity {A : Type} (store : Store) (entityClass : EntityClass A)
    (entityId : String) : Except HydrateError A :=
  let stateSlice := jsToLowerCase entityClass.name
  match List.lookup stateSlice store.state with
  | none => Except.error HydrateError.sliceUndefined
  | some entities =>
    match List.lookup entityId entities with
    | none =>
      Except.ok (entityClass.construct [JSValue.dispatchCap, JSValue.str entityId])
    | some entityData =>
      Except.ok (entityClass.construct
        (JSValue.dispatchCap :: entityData.map Prod.snd))

/-- Whether a runtime value is an identifier (Guid) value, as opposed to a
raw string or anything else. -/
def isIdentifierValue : JSValue → Bool
  | JSValue.guid _ => true
  | _ => false

/-- An ASCII hexadecimal digit. -/
def isHexDigit (c : Char) : Bool :=
  c.isDigit || ('a' ≤ c && c ≤ 'f') || ('A' ≤ c && c ≤ 'F')

/-- Modelled from the spec: the canonical UUID textual shape
(five groups of 8-4-4-4-12 hexadecimal digits separated by dashes) used
by the specification's field-coercion rule.  The source under `src/` has
no such check; this definition only serves to state claims about that
rule. -/
def isUuidShape (s : String) : Bool :=
  let parts := s.toList.splitOn '-'
  (parts.map List.length == [8, 4, 4, 4, 12]) &&
    parts.all (fun p => p.all isHexDigit)

/-- A concrete aggregate used to evaluate hydration: a class whose
constructor takes `(dispatch, name, ownerId)` positionally, mirroring the
positional constructors the package documentation shows for domain
classes. -/
structure TestAgg where
  name : JSValue
  ownerId : JSValue
deriving DecidableEq, Repr

def testAggClass : EntityClass TestAgg where
  name := "TestAgg"
  construct := fun args =>
    match args with
    | [_, a, b] => ⟨a, b⟩
    | [_, a] => ⟨a, JSValue.undef⟩
    | _ => ⟨JSValue.undef, JSValue.undef⟩

/-- A second concrete aggregate class whose slice is absent from the
counterexample store. -/
def userClass : EntityClass TestAgg where
  name := "User"
  construct := fun _ => ⟨JSValue.undef, JSValue.undef⟩

/-- A canonical UUID-shaped string. -/
def uuidStr : String := "123e4567-e89b-12d3-a456-426614174000"

/-- A concrete store for evaluating hydration: slice `testagg` holds one
record under id `7` with a plain-string `name` and a UUID-shaped string
`ownerId`. -/
def cexStore : Store where
  state := [("testagg",
    [("7", [("name", JSValue.str "A"), ("ownerId", JSValue.str uuidStr)])])]

/-! ## The dispatcher queue engine (src/dispatchers/index.ts)

`CommandDispatcher` and `EventDispatcher` share the same queue logic:

```
async dispatch(m) {
  this.queue.push(m);
  if (!this.isProcessing) { await this.processQueue(); }
}
private async processQueue() {
  this.isProcessing = true;
  while (this.queue.length > 0) {
    const m = this.queue.shift()!;
    const handler = this.handlers.get(m.type);
    if (handler) { try { await handler(m); } catch (e) { console.error(...); } }
    else { console.error(...); }
  }
  this.isProcessing = false;
}
```

The embedding is a labelled transition system over rest states of the
JavaScript event loop.  Synchronous code runs to the next `await` inside
one step (`runLoop`); the external environment chooses when a suspended
handler settles (`Label.complete`, with the handler's success or
failure), and when a new `dispatch` call arrives (`Label.dispatch`).
`Entry.resolved t` records the settlement of the promise returned by the
dispatch call with ticket `t`; a dispatch made while a drain is active
returns without awaiting, so its promise settles immediately, while a
dispatch that starts the drain awaits `processQueue()` and settles when
the drain ends.  The observable history is kept in `log`; `drains`
counts the `processQueue` activations currently running. -/

/-- A message (command or event): an object identity and its `type` tag. -/
structure Msg where
  ident : Nat
  type : String
deriving DecidableEq, Repr

/-- Observable events of one dispatcher instance. -/
inductive Entry where
  | dispatched (t : Nat) (m : Msg)
  | invoked (m : Msg)
  | completed (m : Msg) (failed : Bool)
  | noHandler (m : Msg)
  | drainEnd
  | resolved (t : Nat)
deriving DecidableEq, Repr

/-- A rest state of one dispatcher instance. -/
structure DState where
  queue : List Msg
  isProcessing : Bool
  current : Option Msg
  drains : Nat
  drainTicket : Option Nat
  nextTicket : Nat
  log : List Entry
deriving DecidableEq, Repr

/-- Result of running the drain loop synchronously up to the next
`await handler(m)` or to loop exit. -/
structure LoopRes where
  queue : List Msg
  current : Option Msg
  adds : List Entry
  processing : Bool
deriving DecidableEq, Repr

/-- The synchronous part of `processQueue` from the loop head: messages
without a registered handler are reported and dropped without any
`await`, so the loop keeps running synchronously until it either invokes
a handler (suspending on `await handler(m)`) or empties the queue. -/
def runLoop (reg : String → Bool) : List Msg → LoopRes
  | [] => ⟨[], none, [Entry.drainEnd], false⟩
  | m :: rest =>
    if reg m.type then ⟨rest, some m, [Entry.invoked m], true⟩
    else
      let r := runLoop reg rest
      ⟨r.queue, r.current, Entry.noHandler m :: r.adds, r.processing⟩

/-- Apply the outcome of `runLoop` to a state whose control is at the
drain-loop head.  When the loop exits, `isProcessing` is reset, the
`processQueue` promise settles, and with it the awaiting dispatch call's
promise (`drainTicket`). -/
def applyLoop (reg : String → Bool) (s : DState) : DState :=
  let r := runLoop reg s.queue
  if r.processing then
    { s with queue := r.queue, current := r.current, isProcessing := true,
             log := s.log ++ r.adds }
  else
    { s with queue := r.queue, current := none, isProcessing := false,
             drains := s.drains - 1, drainTicket := none,
             log := s.log ++ r.adds ++
               (match s.drainTicket with
                | some t => [Entry.resolved t]
                | none => []) }

/-- Embedding of `dispatch(m)`: push onto the queue; if no drain is in
progress, enter `processQueue` (a new drain, awaited by this call's
promise) and run to the next suspension; otherwise return at once, the
returned promise settling immediately. -/
def stepDispatch (reg : String → Bool) (m : Msg) (s : DState) : DState :=
  let t := s.nextTicket
  let s1 : DState :=
    { s with queue := s.queue ++ [m], nextTicket := t + 1,
             log := s.log ++ [Entry.dispatched t m] }
  if s.isProcessing then
    { s1 with log := s1.log ++ [Entry.resolved t] }
  else
    applyLoop reg
      { s1 with isProcessing := true, drains := s1.drains + 1,
                drainTicket := some t }

/-- Embedding of the settlement of the awaited `handler(m)` promise
(successfully or with a rejection, which the drain loop catches); the
drain loop then resumes at the loop head. -/
def stepComplete (reg : String → Bool) (failed : Bool) (s : DState) :
    Option DState :=
  match s.current with
  | none => none
  | some m =>
    some (applyLoop reg
      { s with current := none,
               log := s.log ++ [Entry.completed m failed] })

/-- Environment choices: an external `dispatch` call, or the settlement
of the currently awaited handler invocation. -/
inductive Label where
  | dispatch (m : Msg)
  | complete (failed : Bool)
deriving DecidableEq, Repr

def step (reg : String → Bool) (l : Label) (s : DState) : Option DState :=
  match l with
  | Label.dispatch m => some (stepDispatch reg m s)
  | Label.complete f => stepComplete reg f s

def runTrace (reg : String → Bool) (s : DState) : List Label → Option DState
  | [] => some s
  | l :: ls =>
    match step reg l s with
    | some s' => runTrace reg s' ls
    | none => none

/-- The dispatcher's initial state: empty queue, empty registry history,
no drain running. -/
def dispInit : DState :=
  { queue := [], isProcessing := false, current := none, drains := 0,
    drainTicket := none, nextTicket := 0, log := [] }

/-- A state reachable from the initial state by some interleaving of
dispatch calls and handler settlements. -/
def Reachable (reg : String → Bool) (s : DState) : Prop :=
  ∃ ls, runTrace reg dispInit ls = some s

/-- Embedding of `EventDispatcher.dispatch`'s value: it runs the shared
queue logic and its promise resolves with `return event` - the very
object passed in. -/
def dispatchEvent (reg : String → Bool) (e : Msg) (s : DState) :
    DState × Msg :=
  (stepDispatch reg e s, e)

/-- Messages submitted via `dispatch`, in submission order. -/
def dispatchedMsgs (l : List Entry) : List Msg :=
  l.filterMap fun e =>
    match e with
    | Entry.dispatched _ m => some m
    | _ => none

/-- Messages removed from the queue head (handled or dropped), in
processing order. -/
def dequeuedMsgs (l : List Entry) : List Msg :=
  l.filterMap fun e =>
    match e with
    | Entry.invoked m => some m
    | Entry.noHandler m => some m
    | _ => none

/-- Messages whose handler was invoked, in invocation order. -/
def invokedMsgs (l : List Entry) : List Msg :=
  l.filterMap fun e =>
    match e with
    | Entry.invoked m => some m
    | _ => none

/-- The invocation/settlement sub-history: `(true, m)` for an
invocation of `m`'s handler, `(false, m)` for its settlement. -/
def icEvents (l : List Entry) : List (Bool × Msg) :=
  l.filterMap fun e =>
    match e with
    | Entry.invoked m => some (true, m)
    | Entry.completed m _ => some (false, m)
    | _ => none

/-- Serialization checker: scans the invocation/settlement history
carrying the at-most-one outstanding invocation; returns `none` when an
invocation begins while another is outstanding, otherwise the final
outstanding invocation. -/
def chk : Option Msg → List (Bool × Msg) → Option (Option Msg)
  | cur, [] => some cur
  | none, (true, m) :: rest => chk (some m) rest
  | some m, (false, m') :: rest => if m' = m then chk none rest else none
  | some _, (true, _) :: _ => none
  | none, (false, _) :: _ => none

/-- Tickets mentioned by an entry (dispatch calls and promise
settlements). -/
def entryTicket : Entry → Option Nat
  | Entry.dispatched t _ => some t
  | Entry.resolved t => some t
  | _ => none

/-- A concrete registry with a handler for tag `A` only. -/
def regA : String → Bool := fun t => t == "A"

def msgA1 : Msg := ⟨1, "A"⟩

def msgA2 : Msg := ⟨2, "A"⟩

def msgB3 : Msg := ⟨3, "B"⟩

/-! ### Character-level facts -/

theorem char_toNat_ofNat (n : Nat) (h : n < 55296) :
    (Char.ofNat n).toNat = n := by
  have hv : n.isValidChar := Or.inl h
  simp only [Char.ofNat, dif_pos hv, Char.ofNatAux, Char.toNat, UInt32.toNat]
  simp

theorem char_toNat_inj {c d : Char} (h : c.toNat = d.toNat) : c = d :=
  Char.ext (UInt32.ext h)

theorem isLower_iff_toNat (c : Char) :
    c.isLower = true ↔ 97 ≤ c.toNat ∧ c.toNat ≤ 122 := by
  simp [Char.isLower, UInt32.le_def, BitVec.le_def]
  rfl

theorem isUpper_iff_toNat (c : Char) :
    c.isUpper = true ↔ 65 ≤ c.toNat ∧ c.toNat ≤ 90 := by
  simp [Char.isUpper, UInt32.le_def, BitVec.le_def]
  rfl

theorem toUpper_of_isUpper {c : Char} (h : c.isUpper = true) :
    c.toUpper = c := by
  rw [isUpper_iff_toNat] at h
  simp only [Char.toUpper]
  rw [if_neg]
  omega

theorem toUpper_toNat_of_isLower {c : Char} (h : c.isLower = true) :
    c.toUpper.toNat = c.toNat - 32 := by
  rw [isLower_iff_toNat] at h
  simp only [Char.toUpper, if_pos (by omega : c.toNat ≥ 97 ∧ c.toNat ≤ 122)]
  exact char_toNat_ofNat _ (by omega)

theorem toLower_toUpper_of_isLower {c : Char} (h : c.isLower = true) :
    c.toUpper.toLower = c := by
  have hu := toUpper_toNat_of_isLower h
  rw [isLower_iff_toNat] at h
  apply char_toNat_inj
  simp only [Char.toLower, hu, if_pos (by omega : c.toNat - 32 ≥ 65 ∧ c.toNat - 32 ≤ 90)]
  rw [char_toNat_ofNat _ (by omega)]
  omega

theorem toUpper_ne_underscore {c : Char} (hc : c ≠ '_') :
    c.toUpper ≠ '_' := by
  intro h
  by_cases hl : c.isLower = true
  · have h1 := toUpper_toNat_of_isLower hl
    rw [h] at h1
    have h95 : ('_' : Char).toNat = 95 := by decide
    rw [h95] at h1
    rw [isLower_iff_toNat] at hl
    omega
  · have : c.toUpper = c := by
      simp only [Char.toUpper]
      rw [if_neg]
      rw [isLower_iff_toNat] at hl
      omega
    exact hc (this ▸ h)

theorem underscore_toUpper : '_'.toUpper = '_' := by decide

theorem isLower_eq_false_of_isUpper {c : Char} (h : c.isUpper = true) :
    c.isLower = false := by
  rw [isUpper_iff_toNat] at h
  cases hl : c.isLower
  · rfl
  · rw [isLower_iff_toNat] at hl
    omega

theorem isUpper_eq_false_of_isLower {c : Char} (h : c.isLower = true) :
    c.isUpper = false := by
  rw [isLower_iff_toNat] at h
  cases hu : c.isUpper
  · rfl
  · rw [isUpper_iff_toNat] at hu
    omega

theorem eq_map_toLower_of_map_toUpper {cs X : List Char}
    (h : ∀ c ∈ cs, c.isLower = true) (he : cs.map Char.toUpper = X) :
    cs = X.map Char.toLower := by
  subst he
  rw [List.map_map]
  have : ∀ c ∈ cs, (Char.toLower ∘ Char.toUpper) c = id c := fun c hc =>
    toLower_toUpper_of_isLower (h c hc)
  rw [List.map_congr_left this, List.map_id]

/-! ### camelToSnake on well-formed camel-case identifiers -/

theorem camelToSnake_cons_of_not_lower {c : Char} (h : c.isLower = false)
    (l : List Char) : camelToSnake (c :: l) = c :: camelToSnake l := by
  cases l with
  | nil => rfl
  | cons d rest => simp [camelToSnake, h]

theorem camelToSnake_lower_nil {cs : List Char}
    (h : ∀ c ∈ cs, c.isLower = true) : camelToSnake cs = cs := by
  induction cs with
  | nil => rfl
  | cons c rest ih =>
    cases rest with
    | nil => rfl
    | cons d rest' =>
      have hd : d.isUpper = false :=
        isUpper_eq_false_of_isLower (h d (by simp))
      have hstep : camelToSnake (c :: d :: rest') = c :: camelToSnake (d :: rest') := by
        simp [camelToSnake, hd]
      rw [hstep]
      exact congrArg (c :: ·) (ih fun x hx => h x (by simp [hx]))

theorem camelToSnake_lower_app {cs : List Char} (hne : cs ≠ [])
    (h : ∀ c ∈ cs, c.isLower = true) {d : Char} (hd : d.isUpper = true)
    (rest : List Char) :
    camelToSnake (cs ++ d :: rest) = cs ++ '_' :: camelToSnake (d :: rest) := by
  induction cs with
  | nil => exact absurd rfl hne
  | cons c cs' ih =>
    have hc : c.isLower = true := h c (by simp)
    cases cs' with
    | nil => simp [camelToSnake, hc, hd]
    | cons c' cs'' =>
      have hc' : c'.isUpper = false :=
        isUpper_eq_false_of_isLower (h c' (by simp))
      have hstep : camelToSnake (c :: c' :: (cs'' ++ d :: rest))
          = c :: camelToSnake (c' :: (cs'' ++ d :: rest)) := by
        simp [camelToSnake, hc']
      have hrec := ih (by simp) (fun x hx => h x (by simp at hx ⊢; tauto))
      calc camelToSnake ((c :: c' :: cs'') ++ d :: rest)
          = c :: camelToSnake ((c' :: cs'') ++ d :: rest) := by
            simpa using hstep
        _ = c :: ((c' :: cs'') ++ '_' :: camelToSnake (d :: rest)) := by
            rw [hrec]
        _ = (c :: c' :: cs'') ++ '_' :: camelToSnake (d :: rest) := by simp

theorem camelSeg_elim {s : List Char} (h : camelSeg s = true) :
    ∃ c cs, s = c :: cs ∧ c.isUpper = true ∧ cs ≠ [] ∧
      ∀ x ∈ cs, x.isLower = true := by
  cases s with
  | nil => simp [camelSeg] at h
  | cons c cs =>
    have h' : (c.isUpper && !cs.isEmpty && cs.all (·.isLower)) = true := h
    simp only [Bool.and_eq_true, Bool.not_eq_true', List.all_eq_true] at h'
    obtain ⟨⟨hu, he⟩, hall⟩ := h'
    refine ⟨c, cs, rfl, hu, ?_, fun x hx => hall x hx⟩
    intro hnil
    subst hnil
    simp at he

theorem camelToSnake_flatten {segs : List (List Char)} (h : CamelSegs segs) :
    camelToSnake segs.flatten = joinU segs := by
  induction segs with
  | nil => rfl
  | cons s rest ih =>
    obtain ⟨c, cs, rfl, hcu, hcsne, hcsl⟩ :=
      camelSeg_elim (h s (List.mem_cons_self s rest))
    have hrest : CamelSegs rest := fun x hx => h x (by simp [hx])
    cases rest with
    | nil =>
      simp only [List.flatten_cons, List.flatten_nil, List.append_nil, joinU]
      rw [camelToSnake_cons_of_not_lower (isLower_eq_false_of_isUpper hcu)]
      exact congrArg (c :: ·) (camelToSnake_lower_nil hcsl)
    | cons s' rest' =>
      obtain ⟨d, ds, rfl, hdu, _, _⟩ :=
        camelSeg_elim (hrest s' (List.mem_cons_self s' rest'))
      have hflat : ((c :: cs) :: (d :: ds) :: rest').flatten
          = c :: (cs ++ d :: (ds ++ rest'.flatten)) := by
        simp [List.flatten_cons]
      rw [hflat,
        camelToSnake_cons_of_not_lower (isLower_eq_false_of_isUpper hcu),
        camelToSnake_lower_app hcsne hcsl hdu]
      have hrec : camelToSnake (d :: (ds ++ rest'.flatten))
          = joinU ((d :: ds) :: rest') := by
        have := ih hrest
        simpa [List.flatten_cons] using this
      rw [hrec]
      simp [joinU]

/-! ### split / join inversion -/

theorem splitCore_no_underscore_app {p : List Char} (hp : '_' ∉ p)
    (l : List Char) :
    splitCore (p ++ l) = (p ++ (splitCore l).1, (splitCore l).2) := by
  induction p with
  | nil => simp
  | cons c p' ih =>
    have hc : c ≠ '_' := fun hcon => hp (by simp [hcon])
    have hp' : '_' ∉ p' := fun hcon => hp (by simp [hcon])
    show splitCore (c :: (p' ++ l)) = _
    simp only [splitCore, if_neg hc]
    rw [ih hp']
    simp

theorem splitCore_underscore_cons (l : List Char) :
    splitCore ('_' :: l) = ([], (splitCore l).1 :: (splitCore l).2) := by
  simp [splitCore]

theorem splitU_joinU {segs : List (List Char)} (hne : segs ≠ [])
    (h : ∀ s ∈ segs, '_' ∉ s) : splitU (joinU segs) = segs := by
  induction segs with
  | nil => exact absurd rfl hne
  | cons s rest ih =>
    cases rest with
    | nil =>
      have hs : '_' ∉ s := h s (by simp)
      have hsplit := splitCore_no_underscore_app hs []
      simp only [List.append_nil] at hsplit
      show splitU s = [s]
      rw [splitU, hsplit]
      simp [splitCore]
    | cons s' rest' =>
      have hs : '_' ∉ s := h s (by simp)
      have hrest : ∀ x ∈ s' :: rest', '_' ∉ x := fun x hx => h x (by simp [hx])
      have hih := ih (by simp) hrest
      show splitU (s ++ '_' :: joinU (s' :: rest')) = s :: s' :: rest'
      rw [splitU, splitCore_no_underscore_app hs, splitCore_underscore_cons]
      simp only [List.append_nil]
      exact congrArg (s :: ·) hih

theorem upperChars_joinU (segs : List (List Char)) :
    upperChars (joinU segs) = joinU (segs.map upperChars) := by
  induction segs with
  | nil => rfl
  | cons s rest ih =>
    cases rest with
    | nil => rfl
    | cons s' rest' =>
      have hL : upperChars (joinU (s :: s' :: rest'))
          = upperChars s ++ '_' :: upperChars (joinU (s' :: rest')) := by
        show upperChars (s ++ '_' :: joinU (s' :: rest')) = _
        simp only [upperChars, List.map_append, List.map_cons, underscore_toUpper]
      rw [hL, ih]
      rfl

theorem camelSeg_no_underscore {s : List Char} (h : camelSeg s = true) :
    '_' ∉ s := by
  obtain ⟨c, cs, rfl, hu, _, hl⟩ := camelSeg_elim h
  intro hmem
  rcases List.mem_cons.mp hmem with hq | hq
  · rw [← hq] at hu
    simp [isUpper_iff_toNat, Char.toNat] at hu
  · have := hl _ hq
    rw [isLower_iff_toNat] at this
    have h95 : ('_' : Char).toNat = 95 := by decide
    omega

theorem upperChars_no_underscore {s : List Char} (h : camelSeg s = true) :
    '_' ∉ upperChars s := by
  intro hmem
  obtain ⟨c, hc, hcu⟩ := List.mem_map.mp hmem
  have hne : c ≠ '_' := fun hcon => camelSeg_no_underscore h (hcon ▸ hc)
  exact toUpper_ne_underscore hne hcu

/-! ### jsIndexOf -/

theorem jsIndexOf_ge_neg_one (l : List (List Char)) (t : List Char) :
    -1 ≤ jsIndexOf l t := by
  induction l with
  | nil => simp [jsIndexOf]
  | cons x rest ih =>
    simp only [jsIndexOf]
    by_cases hx : x = t
    · simp [hx]
    · rw [if_neg hx]
      by_cases hr : jsIndexOf rest t = -1
      · simp [hr]
      · rw [if_neg hr]
        omega

theorem jsIndexOf_ne_neg_one_of_mem {l : List (List Char)} {t : List Char}
    (h : t ∈ l) : jsIndexOf l t ≠ -1 := by
  induction l with
  | nil => simp at h
  | cons x rest ih =>
    simp only [jsIndexOf]
    by_cases hx : x = t
    · simp [hx]
    · rw [if_neg hx]
      have ht : t ∈ rest := by
        rcases List.mem_cons.mp h with hq | hq
        · exact absurd hq.symm hx
        · exact hq
      rw [if_neg (ih ht)]
      have := jsIndexOf_ge_neg_one rest t
      omega

theorem jsIndexOf_eq_neg_one_of_not_mem {l : List (List Char)} {t : List Char}
    (h : t ∉ l) : jsIndexOf l t = -1 := by
  induction l with
  | nil => rfl
  | cons x rest ih =>
    have hx : x ≠ t := fun hcon => h (by simp [hcon])
    have hr : t ∉ rest := fun hcon => h (by simp [hcon])
    simp [jsIndexOf, if_neg hx, ih hr]

/-! ### Uppercased segment identification -/

theorem camelSeg_of_upperChars_eq {s : List Char} {x : Char} {xs : List Char}
    (hs : camelSeg s = true) (h : upperChars s = x :: xs) :
    s = x :: xs.map Char.toLower := by
  obtain ⟨c, cs, rfl, hu, _, hl⟩ := camelSeg_elim hs
  simp only [upperChars, List.map_cons, List.cons.injEq] at h
  obtain ⟨hc, hcs⟩ := h
  rw [toUpper_of_isUpper hu] at hc
  subst hc
  exact congrArg (c :: ·) (eq_map_toLower_of_map_toUpper hl hcs)

theorem upperChars_eq_command_iff {s : List Char} (hs : camelSeg s = true) :
    upperChars s = "COMMAND".toList ↔ s = "Command".toList := by
  constructor
  · intro h
    have h' : upperChars s = 'C' :: "OMMAND".toList := h
    have := camelSeg_of_upperChars_eq hs h'
    rw [this]
    decide
  · intro h
    subst h
    decide

theorem upperChars_eq_event_iff {s : List Char} (hs : camelSeg s = true) :
    upperChars s = "EVENT".toList ↔ s = "Event".toList := by
  constructor
  · intro h
    have h' : upperChars s = 'E' :: "VENT".toList := h
    have := camelSeg_of_upperChars_eq hs h'
    rw [this]
    decide
  · intro h
    subst h
    decide

/-! ### The truncation indexes coincide on camel-case identifiers -/

theorem truncAfter_eq_take_gen {segs : List (List Char)} {low up : List Char}
    (hcs : CamelSegs segs) (hmem : low ∈ segs)
    (hiff : ∀ s, camelSeg s = true → (upperChars s = up ↔ s = low)) :
    truncAfter (segs.map upperChars) up
      = (segs.map upperChars).take ((jsIndexOf segs low + 1).toNat) := by
  induction segs with
  | nil => simp at hmem
  | cons s rest ih =>
    have hseg : camelSeg s = true := hcs s (by simp)
    by_cases hx : s = low
    · subst hx
      have hup : upperChars s = up := (hiff s hseg).mpr rfl
      simp [truncAfter, jsIndexOf, hup]
    · have hup : upperChars s ≠ up := fun hcon => hx ((hiff s hseg).mp hcon)
      have hmem' : low ∈ rest := by
        rcases List.mem_cons.mp hmem with hq | hq
        · exact absurd hq.symm hx
        · exact hq
      have hrest : CamelSegs rest := fun x hx => hcs x (by simp [hx])
      have hne1 := jsIndexOf_ne_neg_one_of_mem hmem'
      have hge := jsIndexOf_ge_neg_one rest low
      have hxlow : s ≠ low := hx
      simp only [List.map_cons, truncAfter, if_neg hup, jsIndexOf,
        if_neg hxlow, if_neg hne1]
      rw [ih hrest hmem']
      have harith : (jsIndexOf rest low + 1 + 1).toNat
          = (jsIndexOf rest low + 1).toNat + 1 := by omega
      rw [harith]
      simp [List.take_succ_cons]

/-! ### handlerTag agrees with the spec's described tag -/

theorem handlerTag_eq_specTag_gen {segs : List (List Char)}
    {lowSeg upSeg : String} (hcs : CamelSegs segs)
    (hmem : lowSeg.toList ∈ segs)
    (hiff : ∀ s, camelSeg s = true →
      (upperChars s = upSeg.toList ↔ s = lowSeg.toList)) :
    handlerTag lowSeg (strOfSegs segs) = specTag upSeg (strOfSegs segs) := by
  have hne : segs ≠ [] := by rintro rfl; simp at hmem
  have hnound : ∀ s ∈ segs, '_' ∉ s := fun s hs_ =>
    camelSeg_no_underscore (hcs s hs_)
  have hsnake : camelToSnake (strOfSegs segs).toList = joinU segs :=
    camelToSnake_flatten hcs
  have hsplit : splitU (camelToSnake (strOfSegs segs).toList) = segs := by
    rw [hsnake]
    exact splitU_joinU hne hnound
  have hnound2 : ∀ s ∈ segs.map upperChars, '_' ∉ s := by
    intro s hs_
    obtain ⟨s0, hs0, rfl⟩ := List.mem_map.mp hs_
    exact upperChars_no_underscore (hcs s0 hs0)
  have hne2 : segs.map upperChars ≠ [] := by simpa using hne
  have hsplitU : splitU (upperChars (camelToSnake (strOfSegs segs).toList))
      = segs.map upperChars := by
    rw [hsnake, upperChars_joinU]
    exact splitU_joinU hne2 hnound2
  simp only [handlerTag, specTag]
  rw [hsplit, hsplitU, truncAfter_eq_take_gen hcs hmem hiff]

theorem handlerTag_eq_empty_of_not_mem {seg name : String}
    (h : seg.toList ∉ splitU (camelToSnake name.toList)) :
    handlerTag seg name = "" := by
  have hz : (jsIndexOf (splitU (camelToSnake name.toList)) seg.toList + 1).toNat
      = 0 := by
    rw [jsIndexOf_eq_neg_one_of_not_mem h]
    rfl
  simp only [handlerTag, hz, List.take_zero]
  rfl

/-! ### Log projection lemmas -/

theorem dispatchedMsgs_append (l l' : List Entry) :
    dispatchedMsgs (l ++ l') = dispatchedMsgs l ++ dispatchedMsgs l' :=
  List.filterMap_append l l' _

theorem dequeuedMsgs_append (l l' : List Entry) :
    dequeuedMsgs (l ++ l') = dequeuedMsgs l ++ dequeuedMsgs l' :=
  List.filterMap_append l l' _

theorem invokedMsgs_append (l l' : List Entry) :
    invokedMsgs (l ++ l') = invokedMsgs l ++ invokedMsgs l' :=
  List.filterMap_append l l' _

theorem icEvents_append (l l' : List Entry) :
    icEvents (l ++ l') = icEvents l ++ icEvents l' :=
  List.filterMap_append l l' _

theorem chk_append (a : Option Msg) (l l' : List (Bool × Msg)) :
    chk a (l ++ l') = (chk a l).bind fun c => chk c l' := by
  induction l generalizing a with
  | nil => cases a <;> rfl
  | cons x rest ih =>
    obtain ⟨b, m⟩ := x
    cases a with
    | none =>
      cases b with
      | true => simpa [chk] using ih (some m)
      | false => rfl
    | some m0 =>
      cases b with
      | true => rfl
      | false =>
        by_cases hm : m = m0
        · simpa [chk, hm] using ih none
        · simp [chk, hm]

/-! ### runLoop characterization -/

theorem runLoop_dequeue (reg : String → Bool) (q : List Msg) :
    dequeuedMsgs (runLoop reg q).adds ++ (runLoop reg q).queue = q := by
  induction q with
  | nil => rfl
  | cons m rest ih =>
    by_cases hm : reg m.type
    · simp [runLoop, hm, dequeuedMsgs]
    · have hstep : runLoop reg (m :: rest)
          = ⟨(runLoop reg rest).queue, (runLoop reg rest).current,
             Entry.noHandler m :: (runLoop reg rest).adds,
             (runLoop reg rest).processing⟩ := by
        simp [runLoop, hm]
      rw [hstep]
      show (m :: dequeuedMsgs (runLoop reg rest).adds)
          ++ (runLoop reg rest).queue = m :: rest
      rw [List.cons_append]
      exact congrArg (m :: ·) ih

theorem runLoop_ticketFree (reg : String → Bool) (q : List Msg) :
    ∀ e ∈ (runLoop reg q).adds, entryTicket e = none := by
  induction q with
  | nil =>
    intro e he
    simp [runLoop] at he
    subst he
    rfl
  | cons m rest ih =>
    intro e he
    by_cases hm : reg m.type
    · simp [runLoop, hm] at he
      subst he
      rfl
    · simp only [runLoop, if_neg hm] at he
      rcases List.mem_cons.mp he with hq | hq
      · subst hq
        rfl
      · exact ih e hq

theorem runLoop_dispatched_nil (reg : String → Bool) (q : List Msg) :
    dispatchedMsgs (runLoop reg q).adds = [] := by
  induction q with
  | nil => rfl
  | cons m rest ih =>
    by_cases hm : reg m.type
    · simp [runLoop, hm, dispatchedMsgs]
    · simp only [runLoop, if_neg hm]
      show dispatchedMsgs (Entry.noHandler m :: (runLoop reg rest).adds) = []
      rw [show dispatchedMsgs (Entry.noHandler m :: (runLoop reg rest).adds)
        = dispatchedMsgs (runLoop reg rest).adds from rfl]
      exact ih

theorem runLoop_processing_true {reg : String → Bool} {q : List Msg}
    (h : (runLoop reg q).processing = true) :
    ∃ m, (runLoop reg q).current = some m
      ∧ icEvents (runLoop reg q).adds = [(true, m)]
      ∧ reg m.type = true := by
  induction q with
  | nil => simp [runLoop] at h
  | cons m rest ih =>
    by_cases hm : reg m.type
    · exact ⟨m, by simp [runLoop, hm, icEvents]⟩
    · simp only [runLoop, if_neg hm] at h ⊢
      obtain ⟨m', h1, h2, h3⟩ := ih h
      exact ⟨m', h1, by
        show icEvents (Entry.noHandler m :: (runLoop reg rest).adds) = _
        rw [show icEvents (Entry.noHandler m :: (runLoop reg rest).adds)
          = icEvents (runLoop reg rest).adds from rfl]
        exact h2, h3⟩

theorem runLoop_processing_false {reg : String → Bool} {q : List Msg}
    (h : (runLoop reg q).processing = false) :
    (runLoop reg q).current = none ∧ (runLoop reg q).queue = []
      ∧ icEvents (runLoop reg q).adds = [] := by
  induction q with
  | nil => exact ⟨rfl, rfl, rfl⟩
  | cons m rest ih =>
    by_cases hm : reg m.type
    · simp [runLoop, hm] at h
    · simp only [runLoop, if_neg hm] at h ⊢
      obtain ⟨h1, h2, h3⟩ := ih h
      refine ⟨h1, h2, ?_⟩
      show icEvents (Entry.noHandler m :: (runLoop reg rest).adds) = []
      rw [show icEvents (Entry.noHandler m :: (runLoop reg rest).adds)
        = icEvents (runLoop reg rest).adds from rfl]
      exact h3

theorem runLoop_noHandler_reg {reg : String → Bool} {q : List Msg} :
    ∀ m, Entry.noHandler m ∈ (runLoop reg q).adds → reg m.type = false := by
  induction q with
  | nil =>
    intro m hm
    simp [runLoop] at hm
  | cons m0 rest ih =>
    intro m hm
    by_cases h0 : reg m0.type
    · simp [runLoop, h0] at hm
    · simp only [runLoop, if_neg h0] at hm
      rcases List.mem_cons.mp hm with hq | hq
      · rw [Entry.noHandler.inj hq]
        simpa using h0
      · exact ih m hq

theorem runLoop_invoked_reg {reg : String → Bool} {q : List Msg} :
    ∀ m, Entry.invoked m ∈ (runLoop reg q).adds → reg m.type = true := by
  induction q with
  | nil =>
    intro m hm
    simp [runLoop] at hm
  | cons m0 rest ih =>
    intro m hm
    by_cases h0 : reg m0.type
    · simp only [runLoop, if_pos h0] at hm
      simp at hm
      rw [hm]
      exact h0
    · simp only [runLoop, if_neg h0] at hm
      rcases List.mem_cons.mp hm with hq | hq
      · exact absurd hq (by simp)
      · exact ih m hq

/-! ### The dispatcher invariant -/

/-- Invariant of every reachable dispatcher state: `isProcessing` tracks
the outstanding handler invocation, an idle dispatcher has an empty
queue and no awaiting ticket, exactly one drain runs while processing,
the log accounts for the queue in FIFO order, invocations and
settlements are properly serialized, reports match the registry, and
tickets are fresh. -/
structure Inv (reg : String → Bool) (s : DState) : Prop where
  proc_current : s.isProcessing = s.current.isSome
  idle_empty : s.isProcessing = false → s.queue = []
  idle_ticket : s.isProcessing = false → s.drainTicket = none
  drains_eq : s.drains = (if s.isProcessing then 1 else 0)
  fifo : dispatchedMsgs s.log = dequeuedMsgs s.log ++ s.queue
  bracket : chk none (icEvents s.log) = some s.current
  noh_reg : ∀ m, Entry.noHandler m ∈ s.log → reg m.type = false
  inv_reg : ∀ m, Entry.invoked m ∈ s.log → reg m.type = true
  fresh : ∀ e ∈ s.log, ∀ t, entryTicket e = some t → t < s.nextTicket
  dt_fresh : ∀ t, s.drainTicket = some t → t < s.nextTicket
  dt_unres : ∀ t, s.drainTicket = some t → Entry.resolved t ∉ s.log

theorem applyLoop_proc {reg : String → Bool} {s : DState}
    (hp : (runLoop reg s.queue).processing = true) :
    applyLoop reg s =
      { s with queue := (runLoop reg s.queue).queue,
               current := (runLoop reg s.queue).current,
               isProcessing := true,
               log := s.log ++ (runLoop reg s.queue).adds } := by
  simp [applyLoop, hp]

theorem applyLoop_done {reg : String → Bool} {s : DState}
    (hp : (runLoop reg s.queue).processing = false) :
    applyLoop reg s =
      { s with queue := (runLoop reg s.queue).queue, current := none,
               isProcessing := false, drains := s.drains - 1,
               drainTicket := none,
               log := s.log ++ (runLoop reg s.queue).adds ++
                 (match s.drainTicket with
                  | some t => [Entry.resolved t]
                  | none => []) } := by
  simp [applyLoop, hp]

theorem isSome_false_iff {m : Option Msg} (h : m.isSome = false) : m = none := by
  cases m
  · rfl
  · simp at h

theorem inv_applyLoop {reg : String → Bool} {s : DState}
    (hproc : s.isProcessing = true) (hcur : s.current = none)
    (hdr : s.drains = 1)
    (hfifo : dispatchedMsgs s.log = dequeuedMsgs s.log ++ s.queue)
    (hbr : chk none (icEvents s.log) = some none)
    (hnoh : ∀ m, Entry.noHandler m ∈ s.log → reg m.type = false)
    (hinv : ∀ m, Entry.invoked m ∈ s.log → reg m.type = true)
    (hfresh : ∀ e ∈ s.log, ∀ t, entryTicket e = some t → t < s.nextTicket)
    (hdtf : ∀ t, s.drainTicket = some t → t < s.nextTicket)
    (hdtu : ∀ t, s.drainTicket = some t → Entry.resolved t ∉ s.log) :
    Inv reg (applyLoop reg s) := by
  by_cases hp : (runLoop reg s.queue).processing = true
  · rw [applyLoop_proc hp]
    obtain ⟨m, hm, hic, hregm⟩ := runLoop_processing_true hp
    refine ⟨?_, ?_, ?_, ?_, ?_, ?_, ?_, ?_, ?_, ?_, ?_⟩
    · show true = (runLoop reg s.queue).current.isSome
      rw [hm]
      rfl
    · intro hcon
      simp at hcon
    · intro hcon
      simp at hcon
    · show s.drains = _
      rw [hdr]
      rfl
    · show dispatchedMsgs (s.log ++ (runLoop reg s.queue).adds)
        = dequeuedMsgs (s.log ++ (runLoop reg s.queue).adds)
          ++ (runLoop reg s.queue).queue
      rw [dispatchedMsgs_append, runLoop_dispatched_nil, List.append_nil,
        hfifo, dequeuedMsgs_append, List.append_assoc,
        runLoop_dequeue reg s.queue]
    · show chk none (icEvents (s.log ++ (runLoop reg s.queue).adds))
        = some (runLoop reg s.queue).current
      rw [icEvents_append, chk_append, hbr, hic, hm]
      rfl
    · intro m0 hmem
      rcases List.mem_append.mp hmem with hq | hq
      · exact hnoh m0 hq
      · exact runLoop_noHandler_reg m0 hq
    · intro m0 hmem
      rcases List.mem_append.mp hmem with hq | hq
      · exact hinv m0 hq
      · exact runLoop_invoked_reg m0 hq
    · intro e he t het
      rcases List.mem_append.mp he with hq | hq
      · exact hfresh e hq t het
      · rw [runLoop_ticketFree reg s.queue e hq] at het
        exact absurd het (by simp)
    · exact hdtf
    · intro t hdt hmem
      rcases List.mem_append.mp hmem with hq | hq
      · exact hdtu t hdt hq
      · have hfree := runLoop_ticketFree reg s.queue _ hq
        simp [entryTicket] at hfree
  · have hp' : (runLoop reg s.queue).processing = false := by
      simpa using hp
    rw [applyLoop_done hp']
    obtain ⟨hc0, hq0, hic0⟩ := runLoop_processing_false hp'
    refine ⟨?_, ?_, ?_, ?_, ?_, ?_, ?_, ?_, ?_, ?_, ?_⟩
    · rfl
    · intro _
      exact hq0
    · intro _
      rfl
    · show s.drains - 1 = _
      rw [hdr]
      rfl
    · show dispatchedMsgs (s.log ++ (runLoop reg s.queue).adds ++ _)
        = dequeuedMsgs (s.log ++ (runLoop reg s.queue).adds ++ _)
          ++ (runLoop reg s.queue).queue
      have ht1 : dispatchedMsgs (match s.drainTicket with
          | some t => [Entry.resolved t]
          | none => []) = [] := by
        cases s.drainTicket <;> rfl
      have ht2 : dequeuedMsgs (match s.drainTicket with
          | some t => [Entry.resolved t]
          | none => []) = [] := by
        cases s.drainTicket <;> rfl
      have hq' : dequeuedMsgs (runLoop reg s.queue).adds = s.queue := by
        have := runLoop_dequeue reg s.queue
        rw [hq0, List.append_nil] at this
        exact this
      rw [dispatchedMsgs_append, dispatchedMsgs_append, runLoop_dispatched_nil,
        ht1, dequeuedMsgs_append, dequeuedMsgs_append, ht2, hq0, hq', hfifo]
    · have htick : icEvents (match s.drainTicket with
          | some t => [Entry.resolved t]
          | none => []) = [] := by
        cases s.drainTicket <;> rfl
      show chk none (icEvents (s.log ++ (runLoop reg s.queue).adds ++ _))
        = some none
      rw [icEvents_append, icEvents_append, htick, hic0]
      simp [hbr]
    · intro m0 hmem
      rcases List.mem_append.mp hmem with hq | hq
      · rcases List.mem_append.mp hq with hq2 | hq2
        · exact hnoh m0 hq2
        · exact runLoop_noHandler_reg m0 hq2
      · exfalso
        cases hdt : s.drainTicket <;> rw [hdt] at hq <;> simp at hq
    · intro m0 hmem
      rcases List.mem_append.mp hmem with hq | hq
      · rcases List.mem_append.mp hq with hq2 | hq2
        · exact hinv m0 hq2
        · exact runLoop_invoked_reg m0 hq2
      · exfalso
        cases hdt : s.drainTicket <;> rw [hdt] at hq <;> simp at hq
    · intro e he t het
      rcases List.mem_append.mp he with hq | hq
      · rcases List.mem_append.mp hq with hq2 | hq2
        · exact hfresh e hq2 t het
        · rw [runLoop_ticketFree reg s.queue e hq2] at het
          exact absurd het (by simp)
      · cases hdt : s.drainTicket with
        | none =>
          rw [hdt] at hq
          simp at hq
        | some t0 =>
          rw [hdt] at hq
          simp at hq
          subst hq
          simp [entryTicket] at het
          subst het
          exact hdtf t0 hdt
    · intro t hdt
      simp at hdt
    · intro t hdt
      simp at hdt

theorem stepDispatch_processing {reg : String → Bool} {s : DState}
    (hp : s.isProcessing = true) (m : Msg) :
    stepDispatch reg m s =
      { s with queue := s.queue ++ [m], nextTicket := s.nextTicket + 1,
               log := (s.log ++ [Entry.dispatched s.nextTicket m])
                 ++ [Entry.resolved s.nextTicket] } := by
  simp [stepDispatch, hp]

theorem stepDispatch_idle {reg : String → Bool} {s : DState}
    (hp : s.isProcessing = false) (m : Msg) :
    stepDispatch reg m s =
      applyLoop reg
        { s with queue := s.queue ++ [m], isProcessing := true,
                 drains := s.drains + 1, drainTicket := some s.nextTicket,
                 nextTicket := s.nextTicket + 1,
                 log := s.log ++ [Entry.dispatched s.nextTicket m] } := by
  simp [stepDispatch, hp]

theorem inv_stepDispatch {reg : String → Bool} {s : DState}
    (h : Inv reg s) (m : Msg) : Inv reg (stepDispatch reg m s) := by
  by_cases hp : s.isProcessing = true
  · rw [stepDispatch_processing hp]
    refine ⟨?_, ?_, ?_, ?_, ?_, ?_, ?_, ?_, ?_, ?_, ?_⟩
    · exact h.proc_current
    · intro hcon
      exact absurd (hp ▸ hcon) (by simp)
    · intro hcon
      exact absurd (hp ▸ hcon) (by simp)
    · exact h.drains_eq
    · show dispatchedMsgs ((s.log ++ [Entry.dispatched s.nextTicket m])
          ++ [Entry.resolved s.nextTicket])
        = dequeuedMsgs ((s.log ++ [Entry.dispatched s.nextTicket m])
          ++ [Entry.resolved s.nextTicket]) ++ (s.queue ++ [m])
      rw [dispatchedMsgs_append, dispatchedMsgs_append, dequeuedMsgs_append,
        dequeuedMsgs_append, h.fifo]
      show ((dequeuedMsgs s.log ++ s.queue) ++ [m]) ++ []
        = ((dequeuedMsgs s.log ++ []) ++ []) ++ (s.queue ++ [m])
      simp
    · show chk none (icEvents ((s.log ++ [Entry.dispatched s.nextTicket m])
          ++ [Entry.resolved s.nextTicket])) = some s.current
      rw [icEvents_append, icEvents_append]
      show chk none ((icEvents s.log ++ []) ++ []) = some s.current
      rw [List.append_nil, List.append_nil]
      exact h.bracket
    · intro m0 hmem
      rcases List.mem_append.mp hmem with hq | hq
      · rcases List.mem_append.mp hq with hq2 | hq2
        · exact h.noh_reg m0 hq2
        · simp at hq2
      · simp at hq
    · intro m0 hmem
      rcases List.mem_append.mp hmem with hq | hq
      · rcases List.mem_append.mp hq with hq2 | hq2
        · exact h.inv_reg m0 hq2
        · simp at hq2
      · simp at hq
    · intro e he t het
      show t < s.nextTicket + 1
      rcases List.mem_append.mp he with hq | hq
      · rcases List.mem_append.mp hq with hq2 | hq2
        · have := h.fresh e hq2 t het
          omega
        · simp at hq2
          subst hq2
          simp [entryTicket] at het
          omega
      · simp at hq
        subst hq
        simp [entryTicket] at het
        omega
    · intro t hdt
      show t < s.nextTicket + 1
      have hdt' : s.drainTicket = some t := hdt
      have := h.dt_fresh t hdt'
      omega
    · intro t hdt hmem
      have hdt' : s.drainTicket = some t := hdt
      have hlt := h.dt_fresh t hdt'
      rcases List.mem_append.mp hmem with hq | hq
      · rcases List.mem_append.mp hq with hq2 | hq2
        · exact h.dt_unres t hdt' hq2
        · simp at hq2
      · simp at hq
        omega
  · have hp' : s.isProcessing = false := by simpa using hp
    rw [stepDispatch_idle hp' m]
    have hcur0 : s.current = none := by
      have := h.proc_current
      rw [hp'] at this
      exact isSome_false_iff this.symm
    apply inv_applyLoop
    · rfl
    · exact hcur0
    · show s.drains + 1 = 1
      have := h.drains_eq
      rw [hp'] at this
      simp at this
      omega
    · show dispatchedMsgs (s.log ++ [Entry.dispatched s.nextTicket m])
        = dequeuedMsgs (s.log ++ [Entry.dispatched s.nextTicket m])
          ++ (s.queue ++ [m])
      rw [dispatchedMsgs_append, dequeuedMsgs_append, h.fifo]
      show (dequeuedMsgs s.log ++ s.queue) ++ [m]
        = (dequeuedMsgs s.log ++ []) ++ (s.queue ++ [m])
      simp
    · show chk none (icEvents (s.log ++ [Entry.dispatched s.nextTicket m]))
        = some none
      rw [icEvents_append]
      show chk none (icEvents s.log ++ []) = some none
      rw [List.append_nil, h.bracket, hcur0]
    · intro m0 hmem
      rcases List.mem_append.mp hmem with hq | hq
      · exact h.noh_reg m0 hq
      · simp at hq
    · intro m0 hmem
      rcases List.mem_append.mp hmem with hq | hq
      · exact h.inv_reg m0 hq
      · simp at hq
    · intro e he t het
      show t < s.nextTicket + 1
      rcases List.mem_append.mp he with hq | hq
      · have := h.fresh e hq t het
        omega
      · simp at hq
        subst hq
        simp [entryTicket] at het
        omega
    · intro t hdt
      show t < s.nextTicket + 1
      have hdt' : some s.nextTicket = some t := hdt
      have := Option.some.inj hdt'
      omega
    · intro t hdt hmem
      have hdt' : some s.nextTicket = some t := hdt
      have hteq := Option.some.inj hdt'
      subst hteq
      rcases List.mem_append.mp hmem with hq | hq
      · have := h.fresh _ hq s.nextTicket (by rfl)
        omega
      · simp at hq

theorem inv_stepComplete {reg : String → Bool} {s s' : DState}
    (h : Inv reg s) {f : Bool}
    (hstep : stepComplete reg f s = some s') : Inv reg s' := by
  cases hc : s.current with
  | none => simp [stepComplete, hc] at hstep
  | some m =>
    simp only [stepComplete, hc] at hstep
    have hs' : s' = applyLoop reg
        { s with current := none,
                 log := s.log ++ [Entry.completed m f] } := by
      exact (Option.some.inj hstep).symm
    subst hs'
    have hproc : s.isProcessing = true := by
      have := h.proc_current
      rw [hc] at this
      simpa using this
    apply inv_applyLoop
    · exact hproc
    · rfl
    · have := h.drains_eq
      rw [hproc] at this
      simpa using this
    · show dispatchedMsgs (s.log ++ [Entry.completed m f])
        = dequeuedMsgs (s.log ++ [Entry.completed m f]) ++ s.queue
      rw [dispatchedMsgs_append, dequeuedMsgs_append, h.fifo]
      show (dequeuedMsgs s.log ++ s.queue) ++ []
        = (dequeuedMsgs s.log ++ []) ++ s.queue
      simp
    · show chk none (icEvents (s.log ++ [Entry.completed m f])) = some none
      rw [icEvents_append, chk_append, h.bracket, hc]
      show chk (some m) [(false, m)] = some none
      simp [chk]
    · intro m0 hmem
      rcases List.mem_append.mp hmem with hq | hq
      · exact h.noh_reg m0 hq
      · simp at hq
    · intro m0 hmem
      rcases List.mem_append.mp hmem with hq | hq
      · exact h.inv_reg m0 hq
      · simp at hq
    · intro e he t het
      rcases List.mem_append.mp he with hq | hq
      · exact h.fresh e hq t het
      · simp at hq
        subst hq
        simp [entryTicket] at het
    · exact h.dt_fresh
    · intro t hdt hmem
      rcases List.mem_append.mp hmem with hq | hq
      · exact h.dt_unres t hdt hq
      · simp at hq

theorem inv_step {reg : String → Bool} {s s' : DState} {l : Label}
    (h : Inv reg s) (hstep : step reg l s = some s') : Inv reg s' := by
  cases l with
  | dispatch m =>
    have hs' : s' = stepDispatch reg m s := (Option.some.inj hstep).symm
    subst hs'
    exact inv_stepDispatch h m
  | complete f => exact inv_stepComplete h hstep

theorem inv_dispInit (reg : String → Bool) : Inv reg dispInit := by
  refine ⟨rfl, fun _ => rfl, fun _ => rfl, rfl, rfl, rfl, ?_, ?_, ?_, ?_, ?_⟩
  · intro m hm
    simp [dispInit] at hm
  · intro m hm
    simp [dispInit] at hm
  · intro e he
    simp [dispInit] at he
  · intro t hdt
    simp [dispInit] at hdt
  · intro t hdt
    simp [dispInit] at hdt

theorem inv_runTrace {reg : String → Bool} {s s' : DState}
    {ls : List Label} (h : Inv reg s)
    (hrun : runTrace reg s ls = some s') : Inv reg s' := by
  induction ls generalizing s with
  | nil =>
    have : s = s' := Option.some.inj hrun
    exact this ▸ h
  | cons l rest ih =>
    simp only [runTrace] at hrun
    cases hstep : step reg l s with
    | none => rw [hstep] at hrun; simp at hrun
    | some s1 =>
      rw [hstep] at hrun
      exact ih (inv_step h hstep) hrun

theorem inv_reachable {reg : String → Bool} {s : DState}
    (h : Reachable reg s) : Inv reg s := by
  obtain ⟨ls, hrun⟩ := h
  exact inv_runTrace (inv_dispInit reg) hrun

/-! ### Further helpers for the claim theorems -/

theorem applyLoop_mk (reg : String → Bool) (q : List Msg) (ip : Bool)
    (cur : Option Msg) (dr : Nat) (dt : Option Nat) (nt : Nat)
    (lg : List Entry) :
    applyLoop reg ⟨q, ip, cur, dr, dt, nt, lg⟩ =
      if (runLoop reg q).processing then
        ⟨(runLoop reg q).queue, true, (runLoop reg q).current, dr, dt, nt,
         lg ++ (runLoop reg q).adds⟩
      else
        ⟨(runLoop reg q).queue, false, none, dr - 1, none, nt,
         lg ++ (runLoop reg q).adds ++
           (match dt with
            | some t => [Entry.resolved t]
            | none => [])⟩ := by
  by_cases hp : (runLoop reg q).processing = true
  · simp [applyLoop, hp]
  · have hp' : (runLoop reg q).processing = false := by simpa using hp
    simp [applyLoop, hp']

theorem stepComplete_eq {reg : String → Bool} {s : DState} {m : Msg}
    (f : Bool) (hc : s.current = some m) :
    stepComplete reg f s = some (applyLoop reg
      ⟨s.queue, s.isProcessing, none, s.drains, s.drainTicket, s.nextTicket,
       s.log ++ [Entry.completed m f]⟩) := by
  simp [stepComplete, hc]

theorem mem_dequeued_of_noHandler {l : List Entry} {m : Msg}
    (h : Entry.noHandler m ∈ l) : m ∈ dequeuedMsgs l := by
  induction l with
  | nil => simp at h
  | cons e rest ih =>
    rcases List.mem_cons.mp h with hq | hq
    · rw [← hq]
      exact List.mem_cons_self m (dequeuedMsgs rest)
    · cases e with
      | dispatched t m0 => exact ih hq
      | invoked m0 => exact List.mem_cons_of_mem m0 (ih hq)
      | completed m0 f => exact ih hq
      | noHandler m0 => exact List.mem_cons_of_mem m0 (ih hq)
      | drainEnd => exact ih hq
      | resolved t => exact ih hq

theorem dequeuedMsgs_eq_invokedMsgs {l : List Entry}
    (h : ∀ m, Entry.noHandler m ∉ l) : dequeuedMsgs l = invokedMsgs l := by
  induction l with
  | nil => rfl
  | cons e rest ih =>
    have hrest : ∀ m, Entry.noHandler m ∉ rest := fun m hm =>
      h m (List.mem_cons_of_mem _ hm)
    cases e with
    | dispatched t m => exact ih hrest
    | invoked m => exact congrArg (m :: ·) (ih hrest)
    | completed m f => exact ih hrest
    | noHandler m => exact absurd (List.mem_cons_self _ _) (h m)
    | drainEnd => exact ih hrest
    | resolved t => exact ih hrest

/-! ## The claims -/

/-- C1: for every handler whose class name is a camel-case identifier
containing the segment `Command` (resp. `Event`), `registerHandler`
stores the handler under the tag the spec describes: insert `_` at each
lower-to-upper boundary, upper-case, and truncate just after the first
`COMMAND` (resp. `EVENT`) segment; in particular
`LoginUserCommandHandler` registers under `LOGIN_USER_COMMAND` and
`ItemUpdatedEventHandler` under `ITEM_UPDATED_EVENT`. -/
theorem c1_handler_tag_truncation :
    (∀ (segs : List (List Char)) (H : Type) (reg : String → Option H)
       (hd : H), CamelSegs segs → "Command".toList ∈ segs →
      handlerTag "Command" (strOfSegs segs) = specTag "COMMAND" (strOfSegs segs)
      ∧ registerHandlerC reg (strOfSegs segs) hd
          (specTag "COMMAND" (strOfSegs segs)) = some hd)
    ∧ (∀ (segs : List (List Char)) (H : Type) (reg : String → Option H)
       (hd : H), CamelSegs segs → "Event".toList ∈ segs →
      handlerTag "Event" (strOfSegs segs) = specTag "EVENT" (strOfSegs segs)
      ∧ registerHandlerE reg (strOfSegs segs) hd
          (specTag "EVENT" (strOfSegs segs)) = some hd)
    ∧ handlerTag "Command" "LoginUserCommandHandler" = "LOGIN_USER_COMMAND"
    ∧ handlerTag "Event" "ItemUpdatedEventHandler" = "ITEM_UPDATED_EVENT" := by
  refine ⟨?_, ?_, by decide, by decide⟩
  · intro segs H reg hd hcs hmem
    have heq := handlerTag_eq_specTag_gen hcs hmem
      (fun s hs_ => upperChars_eq_command_iff hs_)
    refine ⟨heq, ?_⟩
    simp [registerHandlerC, heq]
  · intro segs H reg hd hcs hmem
    have heq := handlerTag_eq_specTag_gen hcs hmem
      (fun s hs_ => upperChars_eq_event_iff hs_)
    refine ⟨heq, ?_⟩
    simp [registerHandlerE, heq]

/-- Witness for C1 at the concrete camel-case name
`LoginUserCommandHandler`. -/
theorem c1_handler_tag_truncation_witness :
    handlerTag "Command"
        (strOfSegs ["Login".toList, "User".toList, "Command".toList,
          "Handler".toList])
      = specTag "COMMAND"
          (strOfSegs ["Login".toList, "User".toList, "Command".toList,
            "Handler".toList])
    ∧ registerHandlerC (fun _ => (none : Option Nat))
        (strOfSegs ["Login".toList, "User".toList, "Command".toList,
          "Handler".toList]) 7
        (specTag "COMMAND"
          (strOfSegs ["Login".toList, "User".toList, "Command".toList,
            "Handler".toList])) = some 7 :=
  c1_handler_tag_truncation.1
    ["Login".toList, "User".toList, "Command".toList, "Handler".toList]
    Nat (fun _ => none) 7 (by decide) (by decide)

/-- C2 counterexample: hydrating id `7` from a slice record
`{ name: "A", ownerId: "<uuid-string>" }` yields an aggregate whose
`ownerId` is the raw UUID-shaped string, not an identifier value: the
source spreads `Object.values(entityData)` positionally into the
constructor and performs no per-field copy and no UUID parsing. -/
theorem c2_counterexample :
    isUuidShape uuidStr = true
    ∧ hydrateEntity cexStore testAggClass "7"
        = Except.ok ⟨JSValue.str "A", JSValue.str uuidStr⟩
    ∧ isIdentifierValue (JSValue.str uuidStr) = false := by
  refine ⟨by decide, by rfl, by decide⟩

/-- C2 (amended): when a persisted record is found, `hydrateEntity` does
not copy fields by name and does not parse UUID-shaped strings; it
invokes the aggregate constructor with the dispatch capability followed
by the record's field values, verbatim and in insertion order. -/
theorem c2_hydrate_spreads_values {A : Type} (store : Store)
    (entityClass : EntityClass A) (entityId : String)
    (entities : JSSlice) (entityData : Record)
    (hslice : List.lookup (jsToLowerCase entityClass.name) store.state
      = some entities)
    (hrec : List.lookup entityId entities = some entityData) :
    hydrateEntity store entityClass entityId
      = Except.ok (entityClass.construct
          (JSValue.dispatchCap :: entityData.map Prod.snd)) := by
  simp [hydrateEntity, hslice, hrec]

/-- Witness for the amended C2 at the concrete counterexample store. -/
theorem c2_hydrate_spreads_values_witness :
    hydrateEntity cexStore testAggClass "7"
      = Except.ok (testAggClass.construct (JSValue.dispatchCap ::
          ([("name", JSValue.str "A"),
            ("ownerId", JSValue.str uuidStr)] : Record).map Prod.snd)) :=
  c2_hydrate_spreads_values cexStore testAggClass "7"
    [("7", [("name", JSValue.str "A"), ("ownerId", JSValue.str uuidStr)])]
    [("name", JSValue.str "A"), ("ownerId", JSValue.str uuidStr)]
    (by decide) (by decide)

/-- C6 counterexample: for the handler class name `FooHandler`, which
contains no `Command`/`Event` segment, `registerHandler` does not
reject: `indexOf` returns `-1`, `slice(0, 0)` keeps no segment, and the
handler is silently stored under the empty-string tag. -/
theorem c6_counterexample :
    handlerTag "Command" "FooHandler" = ""
    ∧ registerHandlerC (fun _ => (none : Option Nat)) "FooHandler" 7 ""
        = some 7
    ∧ handlerTag "Event" "FooHandler" = ""
    ∧ registerHandlerE (fun _ => (none : Option Nat)) "FooHandler" 7 ""
        = some 7 := by
  refine ⟨by decide, by decide, by decide, by decide⟩

/-- C6 (amended): when the handler class name has no `Command`
(resp. `Event`) segment, registration does not reject; it derives the
empty tag `""` (slice of zero segments) and silently registers the
handler under it. -/
theorem c6_unrecognized_name_registers_empty_tag (name : String) (H : Type)
    (reg : String → Option H) (hd : H) :
    ("Command".toList ∉ splitU (camelToSnake name.toList) →
      handlerTag "Command" name = ""
      ∧ registerHandlerC reg name hd "" = some hd)
    ∧ ("Event".toList ∉ splitU (camelToSnake name.toList) →
      handlerTag "Event" name = ""
      ∧ registerHandlerE reg name hd "" = some hd) := by
  constructor
  · intro h
    have he := handlerTag_eq_empty_of_not_mem h
    exact ⟨he, by simp [registerHandlerC, he]⟩
  · intro h
    have he := handlerTag_eq_empty_of_not_mem h
    exact ⟨he, by simp [registerHandlerE, he]⟩

/-- Witness for the amended C6 at the concrete name `FooHandler`. -/
theorem c6_unrecognized_name_registers_empty_tag_witness :
    (handlerTag "Command" "FooHandler" = ""
      ∧ registerHandlerC (fun _ => (none : Option Nat)) "FooHandler" 9 ""
          = some 9)
    ∧ (handlerTag "Event" "FooHandler" = ""
      ∧ registerHandlerE (fun _ => (none : Option Nat)) "FooHandler" 9 ""
          = some 9) := by
  have h := c6_unrecognized_name_registers_empty_tag "FooHandler" Nat
    (fun _ => none) 9
  exact ⟨h.1 (by decide), h.2 (by decide)⟩

/-- C8: when the slice exists but holds no record under the given id,
`hydrateEntity` returns the freshly constructed aggregate - the
constructor invoked with only the dispatch capability and the id, so
every other field keeps its constructor default - and it never fails or
throws for that missing entity. -/
theorem c8_hydrate_missing_entity {A : Type} (store : Store)
    (entityClass : EntityClass A) (entityId : String) (entities : JSSlice)
    (hslice : List.lookup (jsToLowerCase entityClass.name) store.state
      = some entities)
    (hrec : List.lookup entityId entities = none) :
    hydrateEntity store entityClass entityId
      = Except.ok (entityClass.construct
          [JSValue.dispatchCap, JSValue.str entityId]) := by
  simp [hydrateEntity, hslice, hrec]

/-- Witness for C8 at the concrete store, with an id absent from the
slice. -/
theorem c8_hydrate_missing_entity_witness :
    hydrateEntity cexStore testAggClass "8"
      = Except.ok (testAggClass.construct
          [JSValue.dispatchCap, JSValue.str "8"]) :=
  c8_hydrate_missing_entity cexStore testAggClass "8"
    [("7", [("name", JSValue.str "A"), ("ownerId", JSValue.str uuidStr)])]
    (by decide) (by decide)

/-- C9: when the store's state has no slice named after the lower-cased
aggregate class name, `hydrateEntity` throws (the record lookup runs on
an undefined slice) instead of returning a blank aggregate. -/
theorem c9_hydrate_missing_slice {A : Type} (store : Store)
    (entityClass : EntityClass A) (entityId : String)
    (hslice : List.lookup (jsToLowerCase entityClass.name) store.state
      = none) :
    hydrateEntity store entityClass entityId
      = Except.error HydrateError.sliceUndefined := by
  simp [hydrateEntity, hslice]

/-- Witness for C9: the `user` slice is absent from the concrete store. -/
theorem c9_hydrate_missing_slice_witness :
    hydrateEntity cexStore userClass "7"
      = Except.error HydrateError.sliceUndefined :=
  c9_hydrate_missing_slice cexStore userClass "7" (by decide)

/-- The concrete trace: dispatch `msgA1` (its handler suspends), then
dispatch `msgA2` while the drain is in progress. -/
def traceW : List Label := [Label.dispatch msgA1, Label.dispatch msgA2]

/-- The state reached by `traceW`: `msgA1`'s handler is outstanding,
`msgA2` is still queued, yet the promise of `msgA2`'s dispatch (ticket
`1`) has already resolved. -/
def stateW : DState :=
  { queue := [msgA2], isProcessing := true, current := some msgA1,
    drains := 1, drainTicket := some 0, nextTicket := 2,
    log := [Entry.dispatched 0 msgA1, Entry.invoked msgA1,
            Entry.dispatched 1 msgA2, Entry.resolved 1] }

/-- C3 counterexample: after dispatching `msgA1` (handler outstanding)
and then `msgA2`, the completion signal of the second dispatch (ticket
`1`) has already resolved while `msgA2` is still queued and has been
neither invoked nor dropped - the signal did not wait for the message
to be processed. -/
theorem c3_counterexample :
    runTrace regA dispInit traceW = some stateW
    ∧ Entry.dispatched 1 msgA2 ∈ stateW.log
    ∧ Entry.resolved 1 ∈ stateW.log
    ∧ Entry.invoked msgA2 ∉ stateW.log
    ∧ Entry.noHandler msgA2 ∉ stateW.log
    ∧ msgA2 ∈ stateW.queue := by
  refine ⟨by decide, by decide, by decide, by decide, by decide, by decide⟩

/-- C3 (amended): a dispatch made while a drain is in progress resolves
immediately upon enqueuing, possibly before its message is processed;
a dispatch made while no drain is in progress either drains everything
synchronously (its message already dequeued when its signal resolves)
or ties its completion signal to the drain it starts, and a drain
ticket resolves only at a step after which the queue is empty and every
dispatched message - in particular this one and everything queued ahead
of it - has been dequeued. -/
theorem c3_completion_signal (reg : String → Bool) (s : DState)
    (hs : Reachable reg s) :
    (s.isProcessing = false → ∀ m,
      (Entry.resolved s.nextTicket ∈ (stepDispatch reg m s).log
        ∧ m ∈ dequeuedMsgs (stepDispatch reg m s).log)
      ∨ ((stepDispatch reg m s).drainTicket = some s.nextTicket
        ∧ Entry.resolved s.nextTicket ∉ (stepDispatch reg m s).log))
    ∧ (s.isProcessing = true → ∀ m,
      stepDispatch reg m s =
        { s with queue := s.queue ++ [m], nextTicket := s.nextTicket + 1,
                 log := (s.log ++ [Entry.dispatched s.nextTicket m])
                   ++ [Entry.resolved s.nextTicket] })
    ∧ (∀ t lab s', s.drainTicket = some t → step reg lab s = some s' →
        Entry.resolved t ∈ s'.log →
        s'.queue = [] ∧ dispatchedMsgs s'.log = dequeuedMsgs s'.log) := by
  have h := inv_reachable hs
  refine ⟨?_, fun hp m => stepDispatch_processing hp m, ?_⟩
  · intro hp m
    rw [stepDispatch_idle hp m]
    rw [applyLoop_mk]
    by_cases hr : (runLoop reg (s.queue ++ [m])).processing = true
    · rw [if_pos hr]
      refine Or.inr ⟨rfl, ?_⟩
      intro hmem
      rcases List.mem_append.mp hmem with hq | hq
      · rcases List.mem_append.mp hq with hq2 | hq2
        · have := h.fresh _ hq2 s.nextTicket rfl
          omega
        · simp at hq2
      · have hfree := runLoop_ticketFree reg (s.queue ++ [m]) _ hq
        simp [entryTicket] at hfree
    · have hr' : (runLoop reg (s.queue ++ [m])).processing = false := by
        simpa using hr
      rw [if_neg (by simp [hr'])]
      obtain ⟨hc0, hq0, hic0⟩ := runLoop_processing_false hr'
      have hdq : dequeuedMsgs (runLoop reg (s.queue ++ [m])).adds
          = s.queue ++ [m] := by
        have := runLoop_dequeue reg (s.queue ++ [m])
        rw [hq0, List.append_nil] at this
        exact this
      refine Or.inl ⟨?_, ?_⟩
      · show Entry.resolved s.nextTicket ∈
          (s.log ++ [Entry.dispatched s.nextTicket m])
            ++ (runLoop reg (s.queue ++ [m])).adds ++ [Entry.resolved s.nextTicket]
        simp
      · show m ∈ dequeuedMsgs
          ((s.log ++ [Entry.dispatched s.nextTicket m])
            ++ (runLoop reg (s.queue ++ [m])).adds ++ [Entry.resolved s.nextTicket])
        rw [dequeuedMsgs_append, dequeuedMsgs_append, hdq]
        simp
  · intro t lab s' hdt hstep hres
    cases lab with
    | dispatch m =>
      have hs' : s' = stepDispatch reg m s := (Option.some.inj hstep).symm
      subst hs'
      have hp : s.isProcessing = true := by
        by_contra hcon
        have hp' : s.isProcessing = false := by simpa using hcon
        rw [h.idle_ticket hp'] at hdt
        simp at hdt
      rw [stepDispatch_processing hp] at hres ⊢
      exfalso
      rcases List.mem_append.mp hres with hq | hq
      · rcases List.mem_append.mp hq with hq2 | hq2
        · exact h.dt_unres t hdt hq2
        · simp at hq2
      · simp at hq
        have := h.dt_fresh t hdt
        omega
    | complete f =>
      cases hc : s.current with
      | none => simp [step, stepComplete, hc] at hstep
      | some m0 =>
        have hstep' : stepComplete reg f s = some s' := hstep
        rw [stepComplete_eq f hc] at hstep'
        have hs' : s' = applyLoop reg
            ⟨s.queue, s.isProcessing, none, s.drains, s.drainTicket,
             s.nextTicket, s.log ++ [Entry.completed m0 f]⟩ :=
          (Option.some.inj hstep').symm
        subst hs'
        rw [applyLoop_mk] at hres ⊢
        by_cases hr : (runLoop reg s.queue).processing = true
        · rw [if_pos hr] at hres ⊢
          exfalso
          rcases List.mem_append.mp hres with hq | hq
          · rcases List.mem_append.mp hq with hq2 | hq2
            · exact h.dt_unres t hdt hq2
            · simp at hq2
          · have hfree := runLoop_ticketFree reg s.queue _ hq
            simp [entryTicket] at hfree
        · have hr' : (runLoop reg s.queue).processing = false := by
            simpa using hr
          rw [if_neg (by simp [hr'])] at hres ⊢
          obtain ⟨hc0, hq0, hic0⟩ := runLoop_processing_false hr'
          refine ⟨hq0, ?_⟩
          have hdq : dequeuedMsgs (runLoop reg s.queue).adds = s.queue := by
            have := runLoop_dequeue reg s.queue
            rw [hq0, List.append_nil] at this
            exact this
          have htickd : dispatchedMsgs (match s.drainTicket with
              | some t0 => [Entry.resolved t0]
              | none => []) = [] := by
            cases s.drainTicket <;> rfl
          have htickq : dequeuedMsgs (match s.drainTicket with
              | some t0 => [Entry.resolved t0]
              | none => []) = [] := by
            cases s.drainTicket <;> rfl
          show dispatchedMsgs ((s.log ++ [Entry.completed m0 f])
              ++ (runLoop reg s.queue).adds ++ _)
            = dequeuedMsgs ((s.log ++ [Entry.completed m0 f])
              ++ (runLoop reg s.queue).adds ++ _)
          rw [dispatchedMsgs_append, dispatchedMsgs_append,
            dispatchedMsgs_append, dequeuedMsgs_append, dequeuedMsgs_append,
            dequeuedMsgs_append, htickd, htickq, runLoop_dispatched_nil, hdq,
            h.fifo]
          simp [dispatchedMsgs, dequeuedMsgs]

/-- Witness for the amended C3: at the concrete reachable state
`stateW` a drain is in progress, so a further dispatch only enqueues
and its promise resolves at once. -/
theorem c3_completion_signal_witness :
    stateW.isProcessing = true
    ∧ stepDispatch regA msgB3 stateW =
        { stateW with queue := stateW.queue ++ [msgB3],
                      nextTicket := stateW.nextTicket + 1,
                      log := (stateW.log
                          ++ [Entry.dispatched stateW.nextTicket msgB3])
                        ++ [Entry.resolved stateW.nextTicket] } :=
  ⟨by decide,
   (c3_completion_signal regA stateW ⟨traceW, by decide⟩).2.1 (by decide) msgB3⟩

/-- C4: messages dispatched to one dispatcher are processed strictly in
submission order, one at a time: at every reachable state the dequeue
order extended by the remaining queue is exactly the dispatch order,
handler invocations and their settlements alternate (no invocation
begins before the previous one settled, whatever the handler latency),
and when every dispatched message has a registered handler the
invocation order is exactly the dispatch order. -/
theorem c4_fifo_serialized (reg : String → Bool) (s : DState)
    (hs : Reachable reg s) :
    dispatchedMsgs s.log = dequeuedMsgs s.log ++ s.queue
    ∧ chk none (icEvents s.log) = some s.current
    ∧ ((∀ m ∈ dispatchedMsgs s.log, reg m.type = true) →
        dispatchedMsgs s.log = invokedMsgs s.log ++ s.queue) := by
  have h := inv_reachable hs
  refine ⟨h.fifo, h.bracket, ?_⟩
  intro hall
  have hnoh : ∀ m, Entry.noHandler m ∉ s.log := by
    intro m hm
    have hfalse := h.noh_reg m hm
    have hdq : m ∈ dequeuedMsgs s.log := mem_dequeued_of_noHandler hm
    have hdisp : m ∈ dispatchedMsgs s.log := by
      rw [h.fifo]
      exact List.mem_append_left _ hdq
    rw [hall m hdisp] at hfalse
    exact absurd hfalse (by simp)
  rw [← dequeuedMsgs_eq_invokedMsgs hnoh]
  exact h.fifo

/-- Witness for C4 at the concrete reachable state `stateW`. -/
theorem c4_fifo_serialized_witness :
    dispatchedMsgs stateW.log = dequeuedMsgs stateW.log ++ stateW.queue
    ∧ chk none (icEvents stateW.log) = some stateW.current
    ∧ ((∀ m ∈ dispatchedMsgs stateW.log, regA m.type = true) →
        dispatchedMsgs stateW.log = invokedMsgs stateW.log ++ stateW.queue) :=
  c4_fifo_serialized regA stateW ⟨traceW, by decide⟩

/-- C5: a handler failure is caught at the drain loop and changes
nothing but the recorded outcome: settling the outstanding invocation
with a rejection produces exactly the same continuation as settling it
successfully - same remaining queue (a suffix of the previous queue:
the failing message is not retried or re-enqueued), same next
invocation, same drain bookkeeping - and the log additions account for
the further messages processed from the queue in order. -/
theorem c5_fault_isolation (reg : String → Bool) (s : DState) (m : Msg)
    (hc : s.current = some m) :
    ∃ sT sF adds,
      stepComplete reg true s = some sT
      ∧ stepComplete reg false s = some sF
      ∧ sT.queue = sF.queue ∧ sT.current = sF.current
      ∧ sT.isProcessing = sF.isProcessing ∧ sT.drains = sF.drains
      ∧ sT.drainTicket = sF.drainTicket ∧ sT.nextTicket = sF.nextTicket
      ∧ sT.log = (s.log ++ [Entry.completed m true]) ++ adds
      ∧ sF.log = (s.log ++ [Entry.completed m false]) ++ adds
      ∧ dequeuedMsgs adds ++ sT.queue = s.queue := by
  rw [stepComplete_eq true hc, stepComplete_eq false hc, applyLoop_mk,
    applyLoop_mk]
  by_cases hr : (runLoop reg s.queue).processing = true
  · rw [if_pos hr, if_pos hr]
    refine ⟨_, _, (runLoop reg s.queue).adds, rfl, rfl, rfl, rfl, rfl, rfl,
      rfl, rfl, rfl, rfl, ?_⟩
    exact runLoop_dequeue reg s.queue
  · rw [if_neg hr, if_neg hr]
    refine ⟨_, _, (runLoop reg s.queue).adds ++ (match s.drainTicket with
      | some t => [Entry.resolved t]
      | none => []), rfl, rfl, rfl, rfl, rfl, rfl, rfl, rfl, ?_, ?_, ?_⟩
    · simp
    · simp
    · have hr' : (runLoop reg s.queue).processing = false := by
        simpa using hr
      obtain ⟨hc0, hq0, hic0⟩ := runLoop_processing_false hr'
      have htickq : dequeuedMsgs (match s.drainTicket with
          | some t0 => [Entry.resolved t0]
          | none => []) = [] := by
        cases s.drainTicket <;> rfl
      show dequeuedMsgs ((runLoop reg s.queue).adds ++ _)
          ++ (runLoop reg s.queue).queue = s.queue
      rw [dequeuedMsgs_append, htickq, List.append_nil]
      exact runLoop_dequeue reg s.queue

/-- Witness for C5 at the concrete state `stateW`, whose outstanding
invocation is `msgA1`. -/
theorem c5_fault_isolation_witness :
    ∃ sT sF adds,
      stepComplete regA true stateW = some sT
      ∧ stepComplete regA false stateW = some sF
      ∧ sT.queue = sF.queue ∧ sT.current = sF.current
      ∧ sT.isProcessing = sF.isProcessing ∧ sT.drains = sF.drains
      ∧ sT.drainTicket = sF.drainTicket ∧ sT.nextTicket = sF.nextTicket
      ∧ sT.log = (stateW.log ++ [Entry.completed msgA1 true]) ++ adds
      ∧ sF.log = (stateW.log ++ [Entry.completed msgA1 false]) ++ adds
      ∧ dequeuedMsgs adds ++ sT.queue = stateW.queue :=
  c5_fault_isolation regA stateW msgA1 (by decide)

/-- C7: at every reachable state at most one drain loop is active, and
a dispatch made while a drain is in progress only appends the message
to the queue (plus the dispatch/settlement log entries): it leaves the
queue-processing state - `isProcessing`, the outstanding invocation,
the drain count and its awaiting ticket - untouched, and never starts a
second concurrent drain. -/
theorem c7_single_drain (reg : String → Bool) (s : DState)
    (hs : Reachable reg s) :
    s.drains ≤ 1
    ∧ (s.isProcessing = true → ∀ m,
        stepDispatch reg m s =
          { s with queue := s.queue ++ [m], nextTicket := s.nextTicket + 1,
                   log := (s.log ++ [Entry.dispatched s.nextTicket m])
                     ++ [Entry.resolved s.nextTicket] }) := by
  have h := inv_reachable hs
  constructor
  · rw [h.drains_eq]
    by_cases hp : s.isProcessing <;> simp [hp]
  · intro hp m
    exact stepDispatch_processing hp m

/-- Witness for C7 at the concrete reachable state `stateW`. -/
theorem c7_single_drain_witness :
    stateW.drains ≤ 1
    ∧ (stateW.isProcessing = true → ∀ m,
        stepDispatch regA m stateW =
          { stateW with queue := stateW.queue ++ [m],
                        nextTicket := stateW.nextTicket + 1,
                        log := (stateW.log
                            ++ [Entry.dispatched stateW.nextTicket m])
                          ++ [Entry.resolved stateW.nextTicket] }) :=
  c7_single_drain regA stateW ⟨traceW, by decide⟩

/-- C10: `EventDispatcher.dispatch(event)` resolves to the very event
object that was passed in, for every registry and every starting state -
hence regardless of whether a handler was registered for its tag and of
whether the handler succeeded or failed. -/
theorem c10_event_dispatch_returns_event (reg : String → Bool) (e : Msg)
    (s : DState) : (dispatchEvent reg e s).2 = e := rfl

end ReduxCqrs
